import Mathlib

/-! Integer power stubs (`src/int_math_stubs.c`).

A shallow embedding of `int_pow` and of its two OCaml entry points.

* An `int64_t` value is an `Int` in `[-2^63, 2^63)`; every multiplication of the C
  code is followed by `wrap64`, the two's-complement reduction modulo `2^64`.
* The local array `int64_t mul[4]` is a `Table` of four slots; a slot that has not been
  written yet holds `none`, and a read of such a slot (or of an index outside `0..3`)
  is a `fault`.
* The `while` loop is run with a fuel counter: `timeout` is returned when the fuel is
  used up before the loop condition fails.
-/

namespace IntMathStubs

/-! ## Machine integers -/

/-- Two's-complement reduction to a signed 64-bit value: the unique integer in
`[-2^63, 2^63)` congruent to `x` modulo `2^64`. -/
def wrap64 (x : Int) : Int := Int.bmod x (2 ^ 64)

/-- Membership in the range of `int64_t`. -/
def isInt64 (x : Int) : Prop := -(2 : Int) ^ 63 ≤ x ∧ x < (2 : Int) ^ 63

instance (x : Int) : Decidable (isInt64 x) := by
  unfold isInt64; exact inferInstance

/-- The C operator `*` on `int64_t`, with wraparound on overflow. -/
def mul64 (a b : Int) : Int := wrap64 (a * b)

/-- The C unary `-` on `int64_t`, with wraparound (`-INT64_MIN = INT64_MIN`). -/
def neg64 (a : Int) : Int := wrap64 (-a)

/-- The bit pattern of an `int64_t`, read as an unsigned number below `2^64`. -/
def bits64 (x : Int) : Nat := (x % 2 ^ 64).toNat

/-- The C operator `&` on `int64_t`: bitwise and of the two's-complement bit patterns. -/
def and64 (a b : Int) : Int := wrap64 (Nat.land (bits64 a) (bits64 b))

/-- The C operator `>>` on `int64_t`, as an arithmetic (sign-preserving) shift. -/
def sar64 (a : Int) (n : Nat) : Int := Int.shiftRight a n

/-! ## Outcomes of a run -/

/-- Result of running a piece of the program. -/
inductive Outcome (α : Type) where
  /-- normal completion -/
  | ok : α → Outcome α
  /-- read of an array slot that is out of bounds or was never written -/
  | fault : Outcome α
  /-- the fuel ran out before the loop condition became false -/
  | timeout : Outcome α
  deriving DecidableEq, Repr

/-- Sequencing of outcomes. -/
def Outcome.bind {α β : Type} (o : Outcome α) (f : α → Outcome β) : Outcome β :=
  match o with
  | .ok a => f a
  | .fault => .fault
  | .timeout => .timeout

/-! ## The local array `mul[4]` -/

/-- The array `int64_t mul[4]`; `none` is a slot that has not been written. -/
structure Table where
  m0 : Option Int
  m1 : Option Int
  m2 : Option Int
  m3 : Option Int
  deriving DecidableEq, Repr

/-- Read of `mul[i]`: defined for `i` in `0..3` on a slot that has been written. -/
def Table.read (t : Table) (i : Int) : Outcome Int :=
  let slot : Option Int :=
    if i = 0 then t.m0 else if i = 1 then t.m1 else if i = 2 then t.m2
    else if i = 3 then t.m3 else none
  match slot with
  | some v => .ok v
  | none => .fault

/-- The local variables of `int_pow`. -/
structure State where
  ret : Int
  mul : Table
  exponent : Int
  deriving DecidableEq, Repr

/-- Lines 9-13: `ret = 1; mul[0] = 1; mul[1] = base; mul[3] = 1;` (`mul[2]` is left
unwritten). -/
def init (base exponent : Int) : State :=
  { ret := 1
    mul := { m0 := some 1, m1 := some base, m2 := none, m3 := some 1 }
    exponent := exponent }

/-- Line 16: `mul[1] *= mul[3];` -/
def line16 (s : State) : Outcome State :=
  (s.mul.read 1).bind fun a => (s.mul.read 3).bind fun b =>
    .ok { s with mul := { s.mul with m1 := some (mul64 a b) } }

/-- Line 17: `mul[2] = mul[1] * mul[1];` -/
def line17 (s : State) : Outcome State :=
  (s.mul.read 1).bind fun a => (s.mul.read 1).bind fun b =>
    .ok { s with mul := { s.mul with m2 := some (mul64 a b) } }

/-- Line 18: `mul[3] = mul[2] * mul[1];` -/
def line18 (s : State) : Outcome State :=
  (s.mul.read 2).bind fun a => (s.mul.read 1).bind fun b =>
    .ok { s with mul := { s.mul with m3 := some (mul64 a b) } }

/-- Line 19: `ret *= mul[exponent & 3];` -/
def line19 (s : State) : Outcome State :=
  (s.mul.read (and64 s.exponent 3)).bind fun a =>
    .ok { s with ret := mul64 s.ret a }

/-- Line 20: `exponent >>= 2;` with an arithmetic (sign-preserving) shift. -/
def line20 (s : State) : Outcome State :=
  .ok { s with exponent := sar64 s.exponent 2 }

/-- Lines 16-18: the refresh of the power table. -/
def refresh (s : State) : Outcome State :=
  ((line16 s).bind line17).bind line18

/-- Lines 16-20: one execution of the loop body. -/
def body (s : State) : Outcome State :=
  ((refresh s).bind line19).bind line20

/-- Lines 15-21: the `while (exponent != 0)` loop, run for at most `fuel` iterations. -/
def loop : Nat → State → Outcome State
  | 0, s => if s.exponent ≠ 0 then .timeout else .ok s
  | fuel + 1, s => if s.exponent ≠ 0 then (body s).bind (loop fuel) else .ok s

/-- Lines 8-24: `int_pow(base, exponent)`, with at most `fuel` loop iterations. -/
def int_pow (fuel : Nat) (base exponent : Int) : Outcome Int :=
  (loop fuel (init base exponent)).bind fun s => .ok s.ret

/-- The state at the end of the `k`-th loop iteration, when the loop runs that long:
`none` when the loop has left before, or a read faulted. -/
def iterate : Nat → State → Option State
  | 0, s => some s
  | k + 1, s =>
    if s.exponent ≠ 0 then
      match body s with
      | .ok s' => iterate k s'
      | _ => none
    else none

/-! ## The OCaml entry points

The macros and functions of the OCaml runtime used by the two stubs live in
`caml/mlvalues.h` and `caml/alloc.h`, outside this repository. The host word width
`w` (32 or 64) is a parameter. An immediate `value` is modelled by its machine word, a
boxed `int64` by its payload. -/

/-- Two's-complement reduction to a signed `w`-bit machine word (`intnat`). -/
def wrapWord (w : Nat) (x : Int) : Int := Int.bmod x (2 ^ w)

/-- Range of the OCaml type `int` on a host of word width `w`: `w - 1` bits, signed. -/
def isOCamlInt (w : Nat) (x : Int) : Prop :=
  -(2 : Int) ^ (w - 2) ≤ x ∧ x < (2 : Int) ^ (w - 2)

instance (w : Nat) (x : Int) : Decidable (isOCamlInt w x) := by
  unfold isOCamlInt; exact inferInstance

/-- Modelled from the spec: the runtime macro `Long_val` of `caml/mlvalues.h`, which
untags an immediate integer, `Long_val(v) = v >> 1` with an arithmetic shift. -/
def Long_val (v : Int) : Int := Int.shiftRight v 1

/-- Modelled from the spec: the runtime macro `Val_long` of `caml/mlvalues.h`, which
tags a machine integer, `Val_long(x) = (x << 1) + 1` computed in `w`-bit words. -/
def Val_long (w : Nat) (x : Int) : Int := wrapWord w (2 * x + 1)

/-- A boxed OCaml `int64`: a heap block whose payload is one `int64_t`. -/
structure BoxedInt64 where
  payload : Int
  deriving DecidableEq, Repr

/-- Modelled from the spec: the runtime macro `Int64_val` of `caml/mlvalues.h`, which
reads the payload of a boxed `int64`. -/
def Int64_val (v : BoxedInt64) : Int := v.payload

/-- Modelled from the spec: the runtime function `caml_copy_int64` of `caml/alloc.h`,
which allocates a boxed `int64` holding its argument. -/
def caml_copy_int64 (x : Int) : BoxedInt64 := ⟨x⟩

/-- Lines 26-28: `int_math_int_pow_stub`. -/
def int_math_int_pow_stub (w fuel : Nat) (base exponent : Int) : Outcome Int :=
  (int_pow fuel (Long_val base) (Long_val exponent)).bind fun r => .ok (Val_long w r)

/-- Lines 30-33: `int_math_int64_pow_stub`. -/
def int_math_int64_pow_stub (fuel : Nat) (base exponent : BoxedInt64) : Outcome BoxedInt64 :=
  (int_pow fuel (Int64_val base) (Int64_val exponent)).bind fun r => .ok (caml_copy_int64 r)

/-! ## Specification-side definitions -/

/-- The power of the contract: `base^0 = 1`, `base^(k+1) = base^k * base`, every
multiplication being the wraparound multiplication `mul64`. -/
def pow64 (base : Int) : Nat → Int
  | 0 => 1
  | k + 1 => mul64 (pow64 base k) base

/-- The power computed with 63-bit wraparound throughout (the OCaml `int` arithmetic of
a 64-bit host): `base^0 = 1`, `base^(k+1) = base^k * base` reduced to 63 bits. -/
def pow63 (base : Int) : Nat → Int
  | 0 => 1
  | k + 1 => wrapWord 63 (pow63 base k * base)

/-! ## Facts about the machine operations -/

theorem wrap64_modEq (x : Int) : wrap64 x ≡ x [ZMOD 2 ^ 64] := by
  unfold wrap64 Int.ModEq
  have h := @Int.bmod_emod x (2 ^ 64)
  simpa using h

theorem wrap64_congr {a b : Int} (h : a ≡ b [ZMOD 2 ^ 64]) : wrap64 a = wrap64 b := by
  unfold wrap64
  rw [← Int.emod_bmod_congr a, ← Int.emod_bmod_congr b]
  have h' : a % ((2 ^ 64 : Nat) : Int) = b % ((2 ^ 64 : Nat) : Int) := by
    simpa [Int.ModEq] using h
  rw [h']

theorem isInt64_wrap64 (x : Int) : isInt64 (wrap64 x) := by
  unfold isInt64 wrap64
  have h1 := @Int.le_bmod x (2 ^ 64) (by decide)
  have h2 := @Int.bmod_lt x (2 ^ 64) (by decide)
  constructor
  · have : (-(((2 ^ 64 : Nat) : Int) / 2)) = -(2 : Int) ^ 63 := by norm_num
    omega
  · have : ((((2 ^ 64 : Nat) : Int) + 1) / 2) = (2 : Int) ^ 63 := by norm_num
    omega

theorem wrap64_of_isInt64 {x : Int} (h : isInt64 x) : wrap64 x = x := by
  unfold isInt64 at h
  unfold wrap64
  rw [Int.bmod_def]
  have e : (((2 ^ 64 : Nat) : Int)) = 18446744073709551616 := by norm_num
  rw [e]
  norm_num at h
  omega

theorem wrap64_wrap64 (x : Int) : wrap64 (wrap64 x) = wrap64 x :=
  wrap64_of_isInt64 (isInt64_wrap64 x)

theorem bits64_three : bits64 3 = 3 := by decide

/-- On two's-complement bit patterns, `x & 3` is the residue of `x` modulo `4`. -/
theorem and64_three (e : Int) : and64 e 3 = e % 4 := by
  unfold and64
  rw [bits64_three]
  have h : Nat.land (bits64 e) 3 = bits64 e % 4 := Nat.and_pow_two_sub_one_eq_mod (bits64 e) 2
  rw [h]
  have hb : ((bits64 e % 4 : Nat) : Int) = e % 4 := by
    unfold bits64
    have e64 : ((2 : Int) ^ 64) = 18446744073709551616 := by norm_num
    rw [e64]
    omega
  rw [hb]
  apply wrap64_of_isInt64
  unfold isInt64
  norm_num
  omega

/-- An arithmetic shift by two positions is the floor division by `4`. -/
theorem sar64_two (e : Int) : sar64 e 2 = e / 4 := by
  unfold sar64
  have h := Int.shiftRight_eq_div_pow e 2
  simpa using h

/-! ## One iteration of the loop -/

theorem Outcome.ok_bind {α β : Type} (a : α) (f : α → Outcome β) :
    (Outcome.ok a).bind f = f a := rfl

theorem wrap64_mul_left (a b : Int) : wrap64 (wrap64 a * b) = wrap64 (a * b) :=
  wrap64_congr (Int.ModEq.mul (wrap64_modEq a) (Int.ModEq.refl b))

theorem wrap64_mul_right (a b : Int) : wrap64 (a * wrap64 b) = wrap64 (a * b) :=
  wrap64_congr (Int.ModEq.mul (Int.ModEq.refl a) (wrap64_modEq b))

theorem wrap64_pow (a : Int) (n : Nat) : wrap64 (wrap64 a ^ n) = wrap64 (a ^ n) :=
  wrap64_congr (Int.ModEq.pow n (wrap64_modEq a))

/-- Lines 16-18 on a table whose slots 0, 1 and 3 are written: with `c = mul[1] * mul[3]`
the new table is `1, c, c*c, (c*c)*c`. -/
theorem refresh_eq (r p q e : Int) (m2 : Option Int) :
    refresh ⟨r, ⟨some 1, some p, m2, some q⟩, e⟩ =
      .ok ⟨r, ⟨some 1, some (mul64 p q), some (mul64 (mul64 p q) (mul64 p q)),
        some (mul64 (mul64 (mul64 p q) (mul64 p q)) (mul64 p q))⟩, e⟩ := by
  simp [refresh, line16, line17, line18, Table.read, Outcome.bind]

/-- Lines 16-20 on a table whose slots 0, 1 and 3 are written. -/
theorem body_eq (r p q e : Int) (m2 : Option Int) :
    body ⟨r, ⟨some 1, some p, m2, some q⟩, e⟩ =
      .ok ⟨wrap64 (r * mul64 p q ^ (e % 4).toNat),
        ⟨some 1, some (mul64 p q), some (wrap64 (mul64 p q ^ 2)),
          some (wrap64 (mul64 p q ^ 3))⟩, e / 4⟩ := by
  unfold body
  rw [refresh_eq]
  generalize hc : mul64 p q = c
  have h2 : mul64 c c = wrap64 (c ^ 2) := by unfold mul64; rw [pow_two]
  have h3 : mul64 (mul64 c c) c = wrap64 (c ^ 3) := by
    unfold mul64; rw [wrap64_mul_left]; congr 1; ring
  rw [h3, h2]
  have hcases : e % 4 = 0 ∨ e % 4 = 1 ∨ e % 4 = 2 ∨ e % 4 = 3 := by omega
  have hsel : ∃ m, (Table.mk (some 1) (some c) (some (wrap64 (c ^ 2)))
      (some (wrap64 (c ^ 3)))).read (e % 4) = .ok m ∧
      wrap64 (r * m) = wrap64 (r * c ^ (e % 4).toNat) := by
    rcases hcases with h | h | h | h
    · exact ⟨1, by rw [h]; rfl, by rw [h]; simp⟩
    · exact ⟨c, by rw [h]; rfl, by rw [h]; simp⟩
    · exact ⟨wrap64 (c ^ 2), by rw [h]; rfl, by rw [h, wrap64_mul_right]; rfl⟩
    · exact ⟨wrap64 (c ^ 3), by rw [h]; rfl, by rw [h, wrap64_mul_right]; rfl⟩
  obtain ⟨m, hm, hr⟩ := hsel
  have h19 : line19 ⟨r, ⟨some 1, some c, some (wrap64 (c ^ 2)), some (wrap64 (c ^ 3))⟩, e⟩ =
      .ok ⟨wrap64 (r * c ^ (e % 4).toNat),
        ⟨some 1, some c, some (wrap64 (c ^ 2)), some (wrap64 (c ^ 3))⟩, e⟩ := by
    unfold line19
    simp only [and64_three]
    rw [hm]
    simp only [Outcome.bind, mul64]
    rw [hr]
  have h20 : line20 ⟨wrap64 (r * c ^ (e % 4).toNat),
        ⟨some 1, some c, some (wrap64 (c ^ 2)), some (wrap64 (c ^ 3))⟩, e⟩ =
      .ok ⟨wrap64 (r * c ^ (e % 4).toNat),
        ⟨some 1, some c, some (wrap64 (c ^ 2)), some (wrap64 (c ^ 3))⟩, e / 4⟩ := by
    unfold line20
    simp only [sar64_two]
  rw [Outcome.ok_bind, h19, Outcome.ok_bind, h20]

/-! ## The loop -/

theorem pow_digit_split (c : Int) (n : Nat) : c ^ (n % 4) * (c ^ 4) ^ (n / 4) = c ^ n := by
  rw [← pow_mul, ← pow_add, Nat.mod_add_div]

/-- The running base after one more iteration is the fourth power of the current one. -/
theorem next_base_modEq (c : Int) : mul64 c (wrap64 (c ^ 3)) ≡ c ^ 4 [ZMOD 2 ^ 64] := by
  unfold mul64
  refine (wrap64_modEq _).trans ?_
  have h : c * wrap64 (c ^ 3) ≡ c * c ^ 3 [ZMOD 2 ^ 64] :=
    Int.ModEq.mul (Int.ModEq.refl c) (wrap64_modEq _)
  have e : c * c ^ 3 = c ^ 4 := by ring
  rw [e] at h
  exact h

/-- The loop, started with accumulator `r`, running base `c = mul[1] * mul[3]` and a
non-negative exponent `n` of at most `fuel` base-4 digits, ends with `ret = r * c^n`
(wrapped) and `exponent = 0`. -/
theorem loop_eq (fuel : Nat) : ∀ (r p q : Int) (m2 : Option Int) (n : Nat),
    n < 4 ^ fuel → wrap64 r = r →
    ∃ s', loop fuel ⟨r, ⟨some 1, some p, m2, some q⟩, (n : Int)⟩ = .ok s' ∧
      s'.ret = wrap64 (r * mul64 p q ^ n) ∧ s'.exponent = 0 := by
  induction fuel with
  | zero =>
    intro r p q m2 n hn hr
    have h0 : n = 0 := by simpa using hn
    subst h0
    exact ⟨⟨r, ⟨some 1, some p, m2, some q⟩, 0⟩, by simp [loop], by simp [hr], rfl⟩
  | succ f ih =>
    intro r p q m2 n hn hr
    by_cases h0 : n = 0
    · subst h0
      exact ⟨⟨r, ⟨some 1, some p, m2, some q⟩, 0⟩, by simp [loop], by simp [hr], rfl⟩
    · have hne : ((n : Int)) ≠ 0 := by exact_mod_cast h0
      have hstep : loop (f + 1) ⟨r, ⟨some 1, some p, m2, some q⟩, (n : Int)⟩ =
          (body ⟨r, ⟨some 1, some p, m2, some q⟩, (n : Int)⟩).bind (loop f) := by
        simp [loop, hne]
      rw [hstep, body_eq, Outcome.ok_bind]
      have hdiv : ((n : Int)) / 4 = ((n / 4 : Nat) : Int) := by omega
      have hmod : (((n : Int)) % 4).toNat = n % 4 := by omega
      rw [hdiv, hmod]
      have hlt : n / 4 < 4 ^ f := by
        rw [pow_succ] at hn
        omega
      obtain ⟨s', hs, hret, hexp⟩ := ih (wrap64 (r * mul64 p q ^ (n % 4))) (mul64 p q)
        (wrap64 (mul64 p q ^ 3)) (some (wrap64 (mul64 p q ^ 2))) (n / 4) hlt (wrap64_wrap64 _)
      refine ⟨s', hs, ?_, hexp⟩
      rw [hret]
      apply wrap64_congr
      have h1 := Int.ModEq.mul (wrap64_modEq (r * mul64 p q ^ (n % 4)))
        (Int.ModEq.pow (n / 4) (next_base_modEq (mul64 p q)))
      rw [mul_assoc, pow_digit_split] at h1
      exact h1

/-! ## The function `int_pow` -/

theorem pow64_eq_wrap64 (base : Int) (n : Nat) : pow64 base n = wrap64 (base ^ n) := by
  induction n with
  | zero =>
    have h : wrap64 1 = 1 := wrap64_of_isInt64 (by decide)
    simp [pow64, h]
  | succ k ih =>
    rw [pow64, ih, mul64, wrap64_mul_left, pow_succ]

/-- With fuel for every base-4 digit of the exponent, `int_pow` returns the exact power
reduced to 64 bits. -/
theorem int_pow_nat (fuel : Nat) (base : Int) (n : Nat) (hn : n < 4 ^ fuel) :
    int_pow fuel base (n : Int) = .ok (wrap64 (base ^ n)) := by
  obtain ⟨s', hs, hret, _⟩ := loop_eq fuel 1 base 1 none n hn (wrap64_of_isInt64 (by decide))
  unfold int_pow init
  rw [hs, Outcome.ok_bind, hret]
  congr 1
  unfold mul64
  rw [one_mul, mul_one, wrap64_pow]

/-- The same for a non-negative 64-bit exponent: 32 iterations are always enough. -/
theorem int_pow_int64 (fuel : Nat) (base exponent : Int) (h0 : 0 ≤ exponent)
    (h1 : exponent < 2 ^ 63) (hf : 32 ≤ fuel) :
    int_pow fuel base exponent = .ok (wrap64 (base ^ exponent.toNat)) := by
  have hcast : ((exponent.toNat : Nat) : Int) = exponent := Int.toNat_of_nonneg h0
  have hlt : exponent.toNat < 4 ^ fuel := by
    have h32 : (4 : Nat) ^ 32 ≤ 4 ^ fuel := Nat.pow_le_pow_right (by decide) hf
    have h63 : exponent.toNat < 2 ^ 63 := by
      have : ((exponent.toNat : Nat) : Int) < 2 ^ 63 := by rw [hcast]; exact h1
      exact_mod_cast this
    have : (2 : Nat) ^ 63 < 4 ^ 32 := by norm_num
    omega
  have h := int_pow_nat fuel base exponent.toNat hlt
  rw [hcast] at h
  exact h

theorem ediv_ediv_four (e d : Int) (hd : 0 < d) : e / d / 4 = e / (d * 4) := by
  symm
  have h1 := Int.emod_add_ediv e d
  have h2 := Int.emod_nonneg e (ne_of_gt hd)
  have h3 := Int.emod_lt_of_pos e hd
  have h4 := Int.emod_add_ediv (e / d) 4
  have h5 : 0 ≤ e / d % 4 := by omega
  have h6 : e / d % 4 < 4 := by omega
  have key := (@Int.ediv_emod_unique e (d * 4) (e % d + d * (e / d % 4)) (e / d / 4)
    (by positivity)).2
  refine (key ⟨?_, ?_, ?_⟩).1
  · have : d * (e / d) = d * (e / d % 4) + d * 4 * (e / d / 4) := by
      conv_lhs => rw [← h4]
      ring
    linarith
  · positivity
  · nlinarith

/-- Repeated `exponent >>= 2` is the floor division by a power of `4`. -/
theorem iterate_sar64_two (k : Nat) (e : Int) :
    (fun x => sar64 x 2)^[k] e = e / (4 : Int) ^ k := by
  induction k with
  | zero => simp
  | succ k ih =>
    rw [Function.iterate_succ_apply', ih, sar64_two, pow_succ,
      ediv_ediv_four _ _ (by positivity)]

/-- On a table whose slots 0, 1 and 3 are written the loop never faults, whatever the
exponent and the fuel. -/
theorem loop_ok_or_timeout (fuel : Nat) : ∀ (r p q e : Int) (m2 : Option Int),
    (∃ s', loop fuel ⟨r, ⟨some 1, some p, m2, some q⟩, e⟩ = .ok s') ∨
      loop fuel ⟨r, ⟨some 1, some p, m2, some q⟩, e⟩ = .timeout := by
  induction fuel with
  | zero =>
    intro r p q e m2
    by_cases h : e = 0
    · exact Or.inl ⟨⟨r, ⟨some 1, some p, m2, some q⟩, e⟩, by simp [loop, h]⟩
    · exact Or.inr (by simp [loop, h])
  | succ f ih =>
    intro r p q e m2
    by_cases h : e = 0
    · exact Or.inl ⟨⟨r, ⟨some 1, some p, m2, some q⟩, e⟩, by simp [loop, h]⟩
    · have hstep : loop (f + 1) ⟨r, ⟨some 1, some p, m2, some q⟩, e⟩ =
          (body ⟨r, ⟨some 1, some p, m2, some q⟩, e⟩).bind (loop f) := by
        simp [loop, h]
      rw [hstep, body_eq, Outcome.ok_bind]
      exact ih _ _ _ _ _

theorem int_pow_ne_fault (fuel : Nat) (base exponent : Int) :
    int_pow fuel base exponent ≠ .fault := by
  unfold int_pow init
  rcases loop_ok_or_timeout fuel 1 base 1 exponent none with ⟨s', h⟩ | h
  · rw [h, Outcome.ok_bind]; exact fun h => by cases h
  · rw [h]; exact fun h => by cases h

/-- When `b^(n+1)` fits in 64 bits, so does `b^n`. -/
theorem isInt64_pow_of_succ (b : Int) (n : Nat) (h : isInt64 (b ^ (n + 1))) :
    isInt64 (b ^ n) := by
  unfold isInt64 at h ⊢
  have habs : |b ^ (n + 1)| ≤ 2 ^ 63 := abs_le.mpr ⟨h.1, le_of_lt h.2⟩
  rw [pow_succ, abs_mul] at habs
  have hx : 0 ≤ |b ^ n| := abs_nonneg _
  by_cases hb : |b| ≤ 1
  · have h1 : |b ^ n| ≤ 1 := by
      rw [abs_pow]
      exact pow_le_one₀ (abs_nonneg b) hb
    constructor
    · linarith [(abs_le.mp h1).1]
    · have : (1 : Int) < 2 ^ 63 := by norm_num
      linarith [(abs_le.mp h1).2]
  · have hb2 : 2 ≤ |b| := by omega
    have h2 : |b ^ n| * 2 ≤ 2 ^ 63 := le_trans (mul_le_mul_of_nonneg_left hb2 hx) habs
    have h3 : |b ^ n| ≤ 2 ^ 62 := by
      norm_num at h2 ⊢
      omega
    constructor
    · have : -(2 : Int) ^ 63 ≤ -(2 ^ 62) := by norm_num
      linarith [(abs_le.mp h3).1]
    · have : (2 : Int) ^ 62 < 2 ^ 63 := by norm_num
      linarith [(abs_le.mp h3).2]

theorem wrap64_neg (a : Int) : wrap64 (-wrap64 a) = wrap64 (-a) :=
  wrap64_congr (Int.ModEq.neg (wrap64_modEq a))

/-! ## Tagging and untagging of immediate integers -/

/-- A value of the signed `w`-bit range is left unchanged by `wrapWord`. -/
theorem wrapWord_of_range (w : Nat) (hw : 1 ≤ w) (x : Int)
    (h1 : -(2 : Int) ^ (w - 1) ≤ x) (h2 : x < (2 : Int) ^ (w - 1)) : wrapWord w x = x := by
  unfold wrapWord
  rw [Int.bmod_def]
  have hM : (0 : Int) < 2 ^ (w - 1) := by positivity
  have hpow : (((2 ^ w : Nat)) : Int) = 2 * 2 ^ (w - 1) := by
    have : w = (w - 1) + 1 := by omega
    conv_lhs => rw [this, pow_succ]
    push_cast
    ring
  rw [hpow]
  generalize (2 : Int) ^ (w - 1) = M at *
  by_cases hx : 0 ≤ x
  · have hm : x % (2 * M) = x := Int.emod_eq_of_lt hx (by omega)
    rw [hm]
    have : x < (2 * M + 1) / 2 := by omega
    simp [this]
  · have hm : x % (2 * M) = x + 2 * M := by
      have h3 : (x + 2 * M) % (2 * M) = x + 2 * M := Int.emod_eq_of_lt (by omega) (by omega)
      have h4 : (x + 2 * M) % (2 * M) = x % (2 * M) := by simp
      rw [← h4, h3]
    rw [hm]
    have : ¬ (x + 2 * M < (2 * M + 1) / 2) := by omega
    simp [this]

/-- Tagging an integer of the OCaml `int` range does not overflow the machine word. -/
theorem Val_long_of_isOCamlInt (w : Nat) (hw : 2 ≤ w) (x : Int) (h : isOCamlInt w x) :
    Val_long w x = 2 * x + 1 := by
  unfold Val_long
  unfold isOCamlInt at h
  have hpow : (2 : Int) ^ (w - 1) = 2 * 2 ^ (w - 2) := by
    have : w - 1 = (w - 2) + 1 := by omega
    rw [this, pow_succ]
    ring
  apply wrapWord_of_range w (by omega)
  · rw [hpow]; omega
  · rw [hpow]; omega

/-- Untagging undoes tagging. -/
theorem Long_val_tagged (x : Int) : Long_val (2 * x + 1) = x := by
  unfold Long_val
  have h := Int.shiftRight_eq_div_pow (2 * x + 1) 1
  have h' : Int.shiftRight (2 * x + 1) 1 = (2 * x + 1) / 2 := by simpa using h
  rw [h']
  omega

/-- An integer of the OCaml `int` range of a host of at most 64 bits is a 64-bit value. -/
theorem isInt64_of_isOCamlInt (w : Nat) (hw : w ≤ 64) (x : Int) (h : isOCamlInt w x) :
    isInt64 x := by
  unfold isOCamlInt at h
  unfold isInt64
  have h62 : (2 : Int) ^ (w - 2) ≤ 2 ^ 62 := pow_le_pow_right₀ (by norm_num) (by omega)
  have h63 : (2 : Int) ^ 62 < 2 ^ 63 := by norm_num
  constructor
  · linarith [h.1]
  · linarith [h.2]

/-! ## The state after a given number of iterations -/

theorem mul64_wrap64_pow (b : Int) (x y : Nat) :
    mul64 (wrap64 (b ^ x)) (wrap64 (b ^ y)) = wrap64 (b ^ (x + y)) := by
  unfold mul64
  rw [wrap64_mul_left, wrap64_mul_right, pow_add]

/-- Powers of the next running base are powers of the current one, four times as high. -/
theorem next_base_pow (c : Int) (j : Nat) :
    wrap64 (mul64 c (wrap64 (c ^ 3)) ^ j) = wrap64 (c ^ (4 * j)) := by
  apply wrap64_congr
  have h := Int.ModEq.pow j (next_base_modEq c)
  rw [← pow_mul] at h
  exact h

/-- Closed form of the state at the end of iteration `k + 1`, for a start state with
accumulator `r`, running base `c = mul[1] * mul[3]` and exponent `n ≥ 4^k`. -/
theorem iterate_eq (k : Nat) : ∀ (r p q : Int) (m2 : Option Int) (n : Nat), 4 ^ k ≤ n →
    iterate (k + 1) ⟨r, ⟨some 1, some p, m2, some q⟩, (n : Int)⟩ =
      some ⟨wrap64 (r * mul64 p q ^ (n % 4 ^ (k + 1))),
        ⟨some 1, some (wrap64 (mul64 p q ^ 4 ^ k)), some (wrap64 (mul64 p q ^ (2 * 4 ^ k))),
          some (wrap64 (mul64 p q ^ (3 * 4 ^ k)))⟩, ((n / 4 ^ (k + 1) : Nat) : Int)⟩ := by
  induction k with
  | zero =>
    intro r p q m2 n hn
    have hne : ((n : Int)) ≠ 0 := by
      have : 1 ≤ n := by simpa using hn
      omega
    have hdiv : ((n : Int)) / 4 = ((n / 4 : Nat) : Int) := by omega
    have hmod : (((n : Int)) % 4).toNat = n % 4 := by omega
    have hc : wrap64 (mul64 p q) = mul64 p q := wrap64_wrap64 _
    have hstep : iterate (0 + 1) ⟨r, ⟨some 1, some p, m2, some q⟩, (n : Int)⟩ =
        some ⟨wrap64 (r * mul64 p q ^ (n % 4)),
          ⟨some 1, some (mul64 p q), some (wrap64 (mul64 p q ^ 2)),
            some (wrap64 (mul64 p q ^ 3))⟩, ((n / 4 : Nat) : Int)⟩ := by
      rw [iterate]
      simp only [hne, ne_eq, not_false_eq_true, if_true, body_eq, hdiv, hmod]
      rw [iterate]
    rw [hstep, pow_zero, zero_add, pow_one, mul_one, mul_one, pow_one, hc]
  | succ k ih =>
    intro r p q m2 n hn
    have hpos : 0 < 4 ^ (k + 1) := by positivity
    have hne : ((n : Int)) ≠ 0 := by omega
    have hdiv : ((n : Int)) / 4 = ((n / 4 : Nat) : Int) := by omega
    have hmod : (((n : Int)) % 4).toNat = n % 4 := by omega
    have hn4 : 4 ^ k ≤ n / 4 := by
      rw [pow_succ] at hn
      omega
    have hstep : iterate (k + 1 + 1) ⟨r, ⟨some 1, some p, m2, some q⟩, (n : Int)⟩ =
        iterate (k + 1) ⟨wrap64 (r * mul64 p q ^ (n % 4)),
          ⟨some 1, some (mul64 p q), some (wrap64 (mul64 p q ^ 2)),
            some (wrap64 (mul64 p q ^ 3))⟩, ((n / 4 : Nat) : Int)⟩ := by
      rw [iterate]
      simp only [hne, ne_eq, not_false_eq_true, if_true, body_eq, hdiv, hmod]
    rw [hstep, ih _ _ _ _ _ hn4]
    generalize mul64 p q = c
    have e1 : wrap64 (wrap64 (r * c ^ (n % 4)) * mul64 c (wrap64 (c ^ 3)) ^ (n / 4 % 4 ^ (k + 1))) =
        wrap64 (r * c ^ (n % 4 ^ (k + 1 + 1))) := by
      apply wrap64_congr
      have h1 := Int.ModEq.mul (wrap64_modEq (r * c ^ (n % 4)))
        (Int.ModEq.pow (n / 4 % 4 ^ (k + 1)) (next_base_modEq c))
      have h2 : r * c ^ (n % 4) * (c ^ 4) ^ (n / 4 % 4 ^ (k + 1)) =
          r * c ^ (n % 4 ^ (k + 1 + 1)) := by
        have h3 : n % 4 ^ (k + 1 + 1) = n % 4 + 4 * (n / 4 % 4 ^ (k + 1)) := by
          rw [pow_succ 4 (k + 1), mul_comm (4 ^ (k + 1)) 4, Nat.mod_mul]
        rw [h3, mul_assoc, ← pow_mul, ← pow_add]
      rw [h2] at h1
      exact h1
    have e2 : n / 4 / 4 ^ (k + 1) = n / 4 ^ (k + 1 + 1) := by
      rw [Nat.div_div_eq_div_mul, pow_succ 4 (k + 1), mul_comm]
    have p1 : 4 * 4 ^ k = 4 ^ (k + 1) := by rw [pow_succ, mul_comm]
    have p2 : 4 * (2 * 4 ^ k) = 2 * 4 ^ (k + 1) := by rw [pow_succ]; ring
    have p3 : 4 * (3 * 4 ^ k) = 3 * 4 ^ (k + 1) := by rw [pow_succ]; ring
    rw [e1, e2, next_base_pow, next_base_pow, next_base_pow, p1, p2, p3]

/-- The state at the end of iteration `k + 1` of `int_pow(base, n)`, when `n ≥ 4^k`. -/
theorem iterate_init (base : Int) (n k : Nat) (hn : 4 ^ k ≤ n) :
    iterate (k + 1) (init base (n : Int)) =
      some ⟨pow64 base (n % 4 ^ (k + 1)),
        ⟨some 1, some (pow64 base (4 ^ k)), some (pow64 base (2 * 4 ^ k)),
          some (pow64 base (3 * 4 ^ k))⟩, ((n / 4 ^ (k + 1) : Nat) : Int)⟩ := by
  unfold init
  rw [iterate_eq k 1 base 1 none n hn]
  have hc : ∀ j, wrap64 (mul64 base 1 ^ j) = wrap64 (base ^ j) := by
    intro j
    unfold mul64
    rw [mul_one, wrap64_pow]
  simp only [one_mul, hc, pow64_eq_wrap64]

/-! ## Running out of fuel -/

theorem ediv_four_ediv_pow (e : Int) (k : Nat) : e / 4 / 4 ^ k = e / 4 ^ (k + 1) := by
  have h1 := iterate_sar64_two (k + 1) e
  rw [Function.iterate_succ_apply, sar64_two, iterate_sar64_two] at h1
  exact h1

/-- While `exponent / 4^fuel` is not `0` (an exponent of more than `fuel` base-4 digits, or
a negative one), the loop uses up its fuel. -/
theorem loop_timeout (fuel : Nat) : ∀ (r p q e : Int) (m2 : Option Int),
    e / 4 ^ fuel ≠ 0 → loop fuel ⟨r, ⟨some 1, some p, m2, some q⟩, e⟩ = .timeout := by
  induction fuel with
  | zero =>
    intro r p q e m2 h
    have he : e ≠ 0 := by simpa using h
    simp [loop, he]
  | succ f ih =>
    intro r p q e m2 h
    have he : e ≠ 0 := by
      intro h0
      apply h
      rw [h0, Int.zero_ediv]
    have hstep : loop (f + 1) ⟨r, ⟨some 1, some p, m2, some q⟩, e⟩ =
        (body ⟨r, ⟨some 1, some p, m2, some q⟩, e⟩).bind (loop f) := by
      simp [loop, he]
    rw [hstep, body_eq, Outcome.ok_bind]
    apply ih
    rw [ediv_four_ediv_pow]
    exact h

theorem int_pow_timeout (fuel : Nat) (base exponent : Int) (h : exponent / 4 ^ fuel ≠ 0) :
    int_pow fuel base exponent = .timeout := by
  unfold int_pow init
  rw [loop_timeout fuel 1 base 1 exponent none h]
  rfl

/-- A number has at most `k` digits in base `b` exactly when it is below `b^k`. -/
theorem digits_length_le_iff (b : Nat) (hb : 1 < b) (n k : Nat) :
    (Nat.digits b n).length ≤ k ↔ n < b ^ k := by
  by_cases hn : n = 0
  · subst hn
    simp
    positivity
  · rw [Nat.digits_len b n hb hn, Nat.succ_le_iff, Nat.lt_pow_iff_log_lt hb hn]

/-- The number of base-4 digits is half the number of bits, rounded up. -/
theorem digits_four_length (n : Nat) :
    (Nat.digits 4 n).length = ((Nat.digits 2 n).length + 1) / 2 := by
  have key : ∀ k, (Nat.digits 4 n).length ≤ k ↔ (Nat.digits 2 n).length ≤ 2 * k := by
    intro k
    rw [digits_length_le_iff 4 (by decide), digits_length_le_iff 2 (by decide), pow_mul]
    norm_num
  have h1 := key (Nat.digits 4 n).length
  have h2 := key (((Nat.digits 2 n).length + 1) / 2)
  omega

/-- Shifting a non-negative number right by `j` bits clears it exactly when it has at
most `j` bits. -/
theorem sar64_natCast_eq_zero_iff (n j : Nat) :
    sar64 (n : Int) j = 0 ↔ (Nat.digits 2 n).length ≤ j := by
  unfold sar64
  have h : Int.shiftRight (n : Int) j = ((n / 2 ^ j : Nat) : Int) := by
    have := Int.shiftRight_eq_div_pow (n : Int) j
    rw [Int.shiftRight_eq] at this
    rw [this]
    push_cast
    rfl
  rw [h, digits_length_le_iff 2 (by decide)]
  have hpos : 0 < 2 ^ j := by positivity
  constructor
  · intro h0
    have h1 : n / 2 ^ j = 0 := by exact_mod_cast h0
    by_contra hge
    have : 0 < n / 2 ^ j := Nat.div_pos (by omega) hpos
    omega
  · intro hlt
    rw [Nat.div_eq_of_lt hlt]
    rfl

/-! ## Negative exponents -/

theorem ediv_pow_neg (e : Int) (k : Nat) (he : e < 0) : e / 4 ^ k < 0 :=
  Int.ediv_neg' he (by positivity)

/-- Once the divisor exceeds the magnitude of a negative number, the floor quotient
is `-1`. -/
theorem ediv_eq_neg_one (e d : Int) (he : e < 0) (hd : -d ≤ e) : e / d = -1 := by
  have hpos : 0 < d := by omega
  exact ((@Int.ediv_emod_unique e d (e + d) (-1) hpos).2
    ⟨by ring, by omega, by omega⟩).1

/-- From a negative exponent the loop enters a `k`-th iteration for every `k`, and ends
it with the exponent `e / 4^k`, again negative. -/
theorem iterate_neg (k : Nat) : ∀ (r p q e : Int) (m2 : Option Int), e < 0 →
    ∃ s', iterate k ⟨r, ⟨some 1, some p, m2, some q⟩, e⟩ = some s' ∧
      s'.exponent = e / 4 ^ k := by
  induction k with
  | zero =>
    intro r p q e m2 _
    exact ⟨⟨r, ⟨some 1, some p, m2, some q⟩, e⟩, rfl, by simp⟩
  | succ k ih =>
    intro r p q e m2 he
    have hne : e ≠ 0 := by omega
    have hstep : iterate (k + 1) ⟨r, ⟨some 1, some p, m2, some q⟩, e⟩ =
        iterate k ⟨wrap64 (r * mul64 p q ^ (e % 4).toNat),
          ⟨some 1, some (mul64 p q), some (wrap64 (mul64 p q ^ 2)),
            some (wrap64 (mul64 p q ^ 3))⟩, e / 4⟩ := by
      rw [iterate]
      simp only [hne, ne_eq, not_false_eq_true, if_true, body_eq]
    obtain ⟨s', hs, hexp⟩ := ih (wrap64 (r * mul64 p q ^ (e % 4).toNat)) (mul64 p q)
      (wrap64 (mul64 p q ^ 3)) (e / 4) (some (wrap64 (mul64 p q ^ 2))) (by omega)
    refine ⟨s', ?_, ?_⟩
    · rw [hstep, hs]
    · rw [hexp, ediv_four_ediv_pow]

/-! ## Shape of the table in the loop -/

/-- Every state at the end of an iteration has slots 0, 1 and 3 of the table written. -/
theorem iterate_shape (k : Nat) : ∀ (r p q e : Int) (m2 : Option Int) (s : State),
    iterate k ⟨r, ⟨some 1, some p, m2, some q⟩, e⟩ = some s →
    ∃ r' p' q' e' m2', s = ⟨r', ⟨some 1, some p', m2', some q'⟩, e'⟩ := by
  induction k with
  | zero =>
    intro r p q e m2 s h
    rw [iterate] at h
    exact ⟨r, p, q, e, m2, (Option.some.inj h).symm⟩
  | succ k ih =>
    intro r p q e m2 s h
    by_cases he : e = 0
    · subst he
      rw [iterate] at h
      simp at h
    · rw [iterate] at h
      simp only [he, ne_eq, not_false_eq_true, if_true, body_eq] at h
      exact ih _ _ _ _ _ s h

/-- Line 19 on a table with all four slots written reads a written slot, whatever the
exponent. -/
theorem line19_ok (r a b c d e : Int) :
    ∃ v, line19 ⟨r, ⟨some a, some b, some c, some d⟩, e⟩ =
      .ok ⟨mul64 r v, ⟨some a, some b, some c, some d⟩, e⟩ := by
  unfold line19
  simp only [and64_three]
  have hcases : e % 4 = 0 ∨ e % 4 = 1 ∨ e % 4 = 2 ∨ e % 4 = 3 := by omega
  have hread : ∃ v, (Table.mk (some a) (some b) (some c) (some d)).read (e % 4) = .ok v := by
    rcases hcases with h | h | h | h
    · exact ⟨a, by rw [h]; rfl⟩
    · exact ⟨b, by rw [h]; rfl⟩
    · exact ⟨c, by rw [h]; rfl⟩
    · exact ⟨d, by rw [h]; rfl⟩
  obtain ⟨v, hv⟩ := hread
  exact ⟨v, by rw [hv, Outcome.ok_bind]⟩

/-! ## The 63-bit view of a 64-bit result -/

theorem isOCamlInt_64_iff (x : Int) :
    isOCamlInt 64 x ↔ -4611686018427387904 ≤ x ∧ x < 4611686018427387904 := by
  unfold isOCamlInt
  norm_num

theorem wrapWord_63_spec (x : Int) :
    isOCamlInt 64 (wrapWord 63 x) ∧
      wrapWord 63 x % 9223372036854775808 = x % 9223372036854775808 := by
  rw [isOCamlInt_64_iff]
  unfold wrapWord
  have h1 := @Int.le_bmod x (2 ^ 63) (by decide)
  have h2 := @Int.bmod_lt x (2 ^ 63) (by decide)
  have h3 := @Int.bmod_emod x (2 ^ 63)
  generalize Int.bmod x (2 ^ 63) = y at *
  norm_num at h1 h2 h3
  exact ⟨⟨by omega, by omega⟩, h3⟩

/-- The 63-bit power is the exact power reduced to the OCaml `int` range. -/
theorem pow63_spec (base : Int) (n : Nat) :
    isOCamlInt 64 (pow63 base n) ∧ pow63 base n ≡ base ^ n [ZMOD 2 ^ 63] := by
  induction n with
  | zero =>
    have h1 : isOCamlInt 64 1 := by decide
    exact ⟨h1, by simp [pow63, Int.ModEq]⟩
  | succ k ih =>
    obtain ⟨hr, hm⟩ := wrapWord_63_spec (pow63 base k * base)
    refine ⟨hr, ?_⟩
    have h1 : wrapWord 63 (pow63 base k * base) ≡ pow63 base k * base [ZMOD 2 ^ 63] := by
      unfold Int.ModEq
      norm_num
      exact hm
    have h2 : pow63 base k * base ≡ base ^ k * base [ZMOD 2 ^ 63] :=
      Int.ModEq.mul ih.2 (Int.ModEq.refl base)
    rw [pow_succ]
    exact h1.trans h2

/-- Tagging a 64-bit value `v` and untagging the result keeps `v` modulo `2^63`, in the
OCaml `int` range. -/
theorem Long_val_Val_long_64 (v : Int) :
    isOCamlInt 64 (Long_val (Val_long 64 v)) ∧
      Long_val (Val_long 64 v) ≡ v [ZMOD 2 ^ 63] ∧ Val_long 64 v % 2 = 1 := by
  have hr : isInt64 (Val_long 64 v) := isInt64_wrap64 (2 * v + 1)
  have hm : Val_long 64 v ≡ 2 * v + 1 [ZMOD 2 ^ 64] := wrap64_modEq (2 * v + 1)
  have hl : Long_val (Val_long 64 v) = Val_long 64 v / 2 := by
    unfold Long_val
    have h := Int.shiftRight_eq_div_pow (Val_long 64 v) 1
    simpa using h
  rw [isOCamlInt_64_iff, hl]
  unfold isInt64 at hr
  unfold Int.ModEq at hm ⊢
  generalize Val_long 64 v = r at *
  norm_num at hr hm ⊢
  omega

/-! ## Contract of `int_pow` -/

/-- C1: for every 64-bit base and every exponent with `0 ≤ exponent ≤ 2^63 - 1`,
`int_pow(base, exponent)` returns the naive power `pow64 base exponent`, defined by
`base^0 = 1`, `base^(k+1) = base^k * base` with 64-bit wraparound multiplication. -/
theorem int_pow_eq_pow64 (fuel : Nat) (base exponent : Int) (_hb : isInt64 base)
    (h0 : 0 ≤ exponent) (h1 : exponent ≤ 2 ^ 63 - 1) (hf : 32 ≤ fuel) :
    int_pow fuel base exponent = .ok (pow64 base exponent.toNat) := by
  rw [pow64_eq_wrap64]
  exact int_pow_int64 fuel base exponent h0 (by omega) hf

/-- C1 at the inputs of the spec: `int_pow(2, 10) = 1024` and `int_pow(3, 5) = 243`. -/
theorem int_pow_eq_pow64_witness :
    (isInt64 2 ∧ (0 : Int) ≤ 10 ∧ (10 : Int) ≤ 2 ^ 63 - 1 ∧
      int_pow 32 2 10 = .ok (pow64 2 (10 : Int).toNat) ∧ pow64 2 (10 : Int).toNat = 1024) ∧
    (isInt64 3 ∧ (0 : Int) ≤ 5 ∧ (5 : Int) ≤ 2 ^ 63 - 1 ∧
      int_pow 32 3 5 = .ok (pow64 3 (5 : Int).toNat) ∧ pow64 3 (5 : Int).toNat = 243) :=
  ⟨⟨by decide, by decide, by decide,
      int_pow_eq_pow64 32 2 10 (by decide) (by decide) (by decide) (by decide), by decide⟩,
    ⟨by decide, by decide, by decide,
      int_pow_eq_pow64 32 3 5 (by decide) (by decide) (by decide) (by decide), by decide⟩⟩

/-- C2: for every 64-bit base and exponent `≥ 0`, `int_pow` (and with it the 64-bit
entry point) returns the unique integer of `[-2^63, 2^63)` that is congruent modulo
`2^64` to the exact, unbounded power `base ^ exponent`; no absence of overflow is
assumed. -/
theorem int_pow_exact_mod (fuel : Nat) (base exponent : Int) (_hb : isInt64 base)
    (h0 : 0 ≤ exponent) (h1 : isInt64 exponent) (hf : 32 ≤ fuel) :
    ∃ v, int_pow fuel base exponent = .ok v ∧
      int_math_int64_pow_stub fuel (caml_copy_int64 base) (caml_copy_int64 exponent) =
        .ok (caml_copy_int64 v) ∧
      isInt64 v ∧ v ≡ base ^ exponent.toNat [ZMOD 2 ^ 64] ∧
      ∀ u, isInt64 u → u ≡ base ^ exponent.toNat [ZMOD 2 ^ 64] → u = v := by
  have h := int_pow_int64 fuel base exponent h0 h1.2 hf
  refine ⟨wrap64 (base ^ exponent.toNat), h, ?_, isInt64_wrap64 _, wrap64_modEq _, ?_⟩
  · unfold int_math_int64_pow_stub Int64_val caml_copy_int64
    rw [h, Outcome.ok_bind]
  · intro u hu hc
    rw [← wrap64_of_isInt64 hu]
    exact wrap64_congr hc

/-- C2 at the inputs of the spec: `int64_pow(2, 64) = 0` and
`int64_pow(2, 62) = 4611686018427387904`. -/
theorem int_pow_exact_mod_witness :
    (isInt64 2 ∧ (0 : Int) ≤ 64 ∧ isInt64 64 ∧ int_pow 32 2 64 = .ok 0 ∧
      int_math_int64_pow_stub 32 (caml_copy_int64 2) (caml_copy_int64 64) =
        .ok (caml_copy_int64 0)) ∧
    (isInt64 2 ∧ (0 : Int) ≤ 62 ∧ isInt64 62 ∧ int_pow 32 2 62 = .ok 4611686018427387904 ∧
      int_math_int64_pow_stub 32 (caml_copy_int64 2) (caml_copy_int64 62) =
        .ok (caml_copy_int64 4611686018427387904)) := by
  obtain ⟨v, hv, hs, _, _, hu⟩ :=
    int_pow_exact_mod 32 2 64 (by decide) (by decide) (by decide) (by decide)
  obtain ⟨v', hv', hs', _, _, hu'⟩ :=
    int_pow_exact_mod 32 2 62 (by decide) (by decide) (by decide) (by decide)
  have e : (0 : Int) = v := hu 0 (by decide) (by decide)
  have e' : (4611686018427387904 : Int) = v' := hu' 4611686018427387904 (by decide) (by decide)
  subst e
  subst e'
  exact ⟨⟨by decide, by decide, by decide, hv, hs⟩, ⟨by decide, by decide, by decide, hv', hs'⟩⟩

/-- C3: for every base and every 64-bit exponent `≥ 0`, repeated right-shifts by 2 bring
the exponent to `0` after some `k ≤ 32` rounds, with fuel for `k` iterations `int_pow`
returns a 64-bit value, and with no amount of fuel does it fault. -/
theorem int_pow_terminates (base exponent : Int) (_hb : isInt64 base) (h0 : 0 ≤ exponent)
    (h1 : isInt64 exponent) :
    ∃ k, k ≤ 32 ∧ (fun x => sar64 x 2)^[k] exponent = 0 ∧
      (∀ fuel, k ≤ fuel → ∃ v, int_pow fuel base exponent = .ok v ∧ isInt64 v) ∧
      ∀ fuel, int_pow fuel base exponent ≠ .fault := by
  refine ⟨32, le_refl _, ?_, ?_, fun fuel => int_pow_ne_fault fuel base exponent⟩
  · rw [iterate_sar64_two]
    apply Int.ediv_eq_zero_of_lt h0
    have := h1.2
    norm_num at this ⊢
    omega
  · intro fuel hf
    exact ⟨_, int_pow_int64 fuel base exponent h0 h1.2 hf, isInt64_wrap64 _⟩

/-- C3 at `base = 7`, `exponent = 2^63 - 1`, the largest 64-bit exponent. -/
theorem int_pow_terminates_witness :
    isInt64 7 ∧ (0 : Int) ≤ 2 ^ 63 - 1 ∧ isInt64 (2 ^ 63 - 1) ∧
    ∃ k, k ≤ 32 ∧ (fun x => sar64 x 2)^[k] (2 ^ 63 - 1 : Int) = 0 ∧
      (∀ fuel, k ≤ fuel → ∃ v, int_pow fuel 7 (2 ^ 63 - 1) = .ok v ∧ isInt64 v) ∧
      ∀ fuel, int_pow fuel 7 (2 ^ 63 - 1) ≠ .fault :=
  ⟨by decide, by decide, by decide,
    int_pow_terminates 7 (2 ^ 63 - 1) (by decide) (by decide) (by decide)⟩

/-- C4: for every base, `int_pow(base, 0) = 1`: the loop body is never executed, the
initial state (accumulator `1`) is the final one. -/
theorem int_pow_zero_exponent (fuel : Nat) (base : Int) :
    loop fuel (init base 0) = .ok (init base 0) ∧ int_pow fuel base 0 = .ok 1 := by
  cases fuel <;> simp [int_pow, loop, init, Outcome.bind]

/-- C5: when `exponent + 1` is a 64-bit value and the exact power `base^(exponent+1)`
fits in the signed 64-bit range, `int_pow(base, exponent+1)` is
`int_pow(base, exponent) * base`, the product being the same with and without
wraparound. -/
theorem int_pow_succ_no_overflow (fuel : Nat) (base exponent : Int) (_hb : isInt64 base)
    (h0 : 0 ≤ exponent) (h1 : isInt64 (exponent + 1))
    (hno : isInt64 (base ^ (exponent + 1).toNat)) (hf : 32 ≤ fuel) :
    ∃ v, int_pow fuel base exponent = .ok v ∧
      int_pow fuel base (exponent + 1) = .ok (mul64 v base) ∧ mul64 v base = v * base := by
  have hs : (exponent + 1).toNat = exponent.toNat + 1 := by omega
  rw [hs] at hno
  have hv := int_pow_int64 fuel base exponent h0 (by have := h1.2; omega) hf
  have hw := int_pow_int64 fuel base (exponent + 1) (by omega) h1.2 hf
  have hfit : wrap64 (base ^ exponent.toNat) = base ^ exponent.toNat :=
    wrap64_of_isInt64 (isInt64_pow_of_succ base _ hno)
  have hm : mul64 (wrap64 (base ^ exponent.toNat)) base = wrap64 (base ^ (exponent.toNat + 1)) := by
    unfold mul64
    rw [wrap64_mul_left, pow_succ]
  refine ⟨wrap64 (base ^ exponent.toNat), hv, ?_, ?_⟩
  · rw [hw, hs, hm]
  · rw [hm, wrap64_of_isInt64 hno, hfit, pow_succ]

/-- C5 at `base = 3`, `exponent = 4`: `int_pow(3, 5) = int_pow(3, 4) * 3 = 81 * 3`. -/
theorem int_pow_succ_no_overflow_witness :
    isInt64 3 ∧ (0 : Int) ≤ 4 ∧ isInt64 (4 + 1) ∧ isInt64 (3 ^ ((4 : Int) + 1).toNat) ∧
    ∃ v, int_pow 32 3 4 = .ok v ∧ int_pow 32 3 (4 + 1) = .ok (mul64 v 3) ∧
      mul64 v 3 = v * 3 :=
  ⟨by decide, by decide, by decide, by decide,
    int_pow_succ_no_overflow 32 3 4 (by decide) (by decide) (by decide) (by decide)
      (by decide)⟩

/-- C6: for every 64-bit base and exponent `≥ 0`, with the negations taken in 64-bit
wraparound arithmetic: `int_pow(-base, exponent) = int_pow(base, exponent)` for an even
exponent and `int_pow(-base, exponent) = -int_pow(base, exponent)` for an odd one. -/
theorem int_pow_neg_base (fuel : Nat) (base exponent : Int) (_hb : isInt64 base)
    (h0 : 0 ≤ exponent) (h1 : isInt64 exponent) (hf : 32 ≤ fuel) :
    ∃ v, int_pow fuel base exponent = .ok v ∧
      (exponent % 2 = 0 → int_pow fuel (neg64 base) exponent = .ok v) ∧
      (exponent % 2 = 1 → int_pow fuel (neg64 base) exponent = .ok (neg64 v)) := by
  have hv := int_pow_int64 fuel base exponent h0 h1.2 hf
  have hn := int_pow_int64 fuel (neg64 base) exponent h0 h1.2 hf
  have hpow : wrap64 (neg64 base ^ exponent.toNat) = wrap64 ((-base) ^ exponent.toNat) := by
    unfold neg64
    exact wrap64_pow _ _
  rw [hpow] at hn
  refine ⟨wrap64 (base ^ exponent.toNat), hv, ?_, ?_⟩
  · intro hev
    have he : Even exponent.toNat := Nat.even_iff.mpr (by omega)
    rw [hn, he.neg_pow]
  · intro hodd
    have ho : Odd exponent.toNat := Nat.odd_iff.mpr (by omega)
    rw [hn, ho.neg_pow]
    unfold neg64
    rw [wrap64_neg]

/-- C6 at the input of the spec, `int_pow(-2, 3) = -8`, and at the minimum base with an
even exponent. -/
theorem int_pow_neg_base_witness :
    (isInt64 2 ∧ (0 : Int) ≤ 3 ∧ isInt64 3 ∧ int_pow 32 (-2) 3 = .ok (-8)) ∧
    (isInt64 (-2 ^ 63) ∧ (0 : Int) ≤ 2 ∧ isInt64 2 ∧
      int_pow 32 (neg64 (-2 ^ 63)) 2 = int_pow 32 (-2 ^ 63) 2) := by
  obtain ⟨v, hv, _, hodd⟩ :=
    int_pow_neg_base 32 2 3 (by decide) (by decide) (by decide) (by decide)
  obtain ⟨v', hv', heven, _⟩ :=
    int_pow_neg_base 32 (-2 ^ 63) 2 (by decide) (by decide) (by decide) (by decide)
  have h8 : int_pow 32 2 3 = .ok 8 := by decide
  have e : v = 8 := by
    rw [h8] at hv
    exact (Outcome.ok.inj hv).symm
  subst e
  have hneg := hodd (by decide)
  have e2 : neg64 2 = -2 := by decide
  have e8 : neg64 8 = -8 := by decide
  rw [e2, e8] at hneg
  refine ⟨⟨by decide, by decide, by decide, hneg⟩, ⟨by decide, by decide, by decide, ?_⟩⟩
  rw [heven (by decide), hv']

/-- C7: for every 64-bit exponent `> 0`, `int_pow(0, exponent) = 0`. -/
theorem int_pow_zero_base (fuel : Nat) (exponent : Int) (h0 : 0 < exponent)
    (h1 : isInt64 exponent) (hf : 32 ≤ fuel) :
    int_pow fuel 0 exponent = .ok 0 := by
  have h := int_pow_int64 fuel 0 exponent (le_of_lt h0) h1.2 hf
  have hne : exponent.toNat ≠ 0 := by omega
  have hw : wrap64 0 = 0 := wrap64_of_isInt64 (by decide)
  rw [zero_pow hne, hw] at h
  exact h

/-- C7 at `exponent = 1` and at the largest 64-bit exponent. -/
theorem int_pow_zero_base_witness :
    ((0 : Int) < 1 ∧ isInt64 1 ∧ int_pow 32 0 1 = .ok 0) ∧
    ((0 : Int) < 2 ^ 63 - 1 ∧ isInt64 (2 ^ 63 - 1) ∧ int_pow 32 0 (2 ^ 63 - 1) = .ok 0) :=
  ⟨⟨by decide, by decide, int_pow_zero_base 32 1 (by decide) (by decide) (by decide)⟩,
    ⟨by decide, by decide,
      int_pow_zero_base 32 (2 ^ 63 - 1) (by decide) (by decide) (by decide)⟩⟩

/-- C8: for every 64-bit exponent `≥ 0`, `int_pow(1, exponent) = 1`. -/
theorem int_pow_one_base (fuel : Nat) (exponent : Int) (h0 : 0 ≤ exponent)
    (h1 : isInt64 exponent) (hf : 32 ≤ fuel) :
    int_pow fuel 1 exponent = .ok 1 := by
  have h := int_pow_int64 fuel 1 exponent h0 h1.2 hf
  have hw : wrap64 1 = 1 := wrap64_of_isInt64 (by decide)
  rw [one_pow, hw] at h
  exact h

/-- C8 at `exponent = 0` and at the largest 64-bit exponent. -/
theorem int_pow_one_base_witness :
    ((0 : Int) ≤ 0 ∧ isInt64 0 ∧ int_pow 32 1 0 = .ok 1) ∧
    ((0 : Int) ≤ 2 ^ 63 - 1 ∧ isInt64 (2 ^ 63 - 1) ∧ int_pow 32 1 (2 ^ 63 - 1) = .ok 1) :=
  ⟨⟨by decide, by decide, int_pow_one_base 32 0 (by decide) (by decide) (by decide)⟩,
    ⟨by decide, by decide,
      int_pow_one_base 32 (2 ^ 63 - 1) (by decide) (by decide) (by decide)⟩⟩

/-- C9: on a host of word width `w` (`2 ≤ w ≤ 64`), for a base and an exponent `≥ 0` of
the OCaml `int` range (hence also 64-bit values) whose exact power is in that range too,
the word-width entry point and the 64-bit entry point both return the exact power:
untagged with `Long_val`, respectively unboxed with `Int64_val`, the two results are the
same number. -/
theorem stubs_agree (w fuel : Nat) (base exponent : Int) (hw : 2 ≤ w) (hw64 : w ≤ 64)
    (hb : isOCamlInt w base) (he : isOCamlInt w exponent) (h0 : 0 ≤ exponent)
    (hp : isOCamlInt w (base ^ exponent.toNat)) (hf : 32 ≤ fuel) :
    ∃ r1 r2, int_math_int_pow_stub w fuel (Val_long w base) (Val_long w exponent) = .ok r1 ∧
      int_math_int64_pow_stub fuel (caml_copy_int64 base) (caml_copy_int64 exponent) = .ok r2 ∧
      Long_val r1 = Int64_val r2 ∧ Int64_val r2 = base ^ exponent.toNat := by
  have he64 := isInt64_of_isOCamlInt w hw64 exponent he
  have hp64 := isInt64_of_isOCamlInt w hw64 _ hp
  have hpow := int_pow_int64 fuel base exponent h0 he64.2 hf
  rw [wrap64_of_isInt64 hp64] at hpow
  refine ⟨Val_long w (base ^ exponent.toNat), caml_copy_int64 (base ^ exponent.toNat),
    ?_, ?_, ?_, rfl⟩
  · unfold int_math_int_pow_stub
    rw [Val_long_of_isOCamlInt w hw base hb, Val_long_of_isOCamlInt w hw exponent he,
      Long_val_tagged, Long_val_tagged, hpow, Outcome.ok_bind]
  · unfold int_math_int64_pow_stub Int64_val caml_copy_int64
    rw [hpow, Outcome.ok_bind]
  · rw [Val_long_of_isOCamlInt w hw _ hp, Long_val_tagged]
    rfl

/-- C9 on a 64-bit host at `(-3)^5 = -243` and on a 32-bit host at `2^10 = 1024`. -/
theorem stubs_agree_witness :
    (isOCamlInt 64 (-3) ∧ isOCamlInt 64 5 ∧ (0 : Int) ≤ 5 ∧
      isOCamlInt 64 ((-3) ^ (5 : Int).toNat) ∧
      ∃ r1 r2, int_math_int_pow_stub 64 32 (Val_long 64 (-3)) (Val_long 64 5) = .ok r1 ∧
        int_math_int64_pow_stub 32 (caml_copy_int64 (-3)) (caml_copy_int64 5) = .ok r2 ∧
        Long_val r1 = Int64_val r2 ∧ Int64_val r2 = (-3) ^ (5 : Int).toNat) ∧
    (isOCamlInt 32 2 ∧ isOCamlInt 32 10 ∧ (0 : Int) ≤ 10 ∧
      isOCamlInt 32 (2 ^ (10 : Int).toNat) ∧
      ∃ r1 r2, int_math_int_pow_stub 32 32 (Val_long 32 2) (Val_long 32 10) = .ok r1 ∧
        int_math_int64_pow_stub 32 (caml_copy_int64 2) (caml_copy_int64 10) = .ok r2 ∧
        Long_val r1 = Int64_val r2 ∧ Int64_val r2 = 2 ^ (10 : Int).toNat) :=
  ⟨⟨by decide, by decide, by decide, by decide,
      stubs_agree 64 32 (-3) 5 (by decide) (by decide) (by decide) (by decide) (by decide)
        (by decide) (by decide)⟩,
    ⟨by decide, by decide, by decide, by decide,
      stubs_agree 32 32 2 10 (by decide) (by decide) (by decide) (by decide) (by decide)
        (by decide) (by decide)⟩⟩

/-! ## Loop invariant -/

/-- C10: loop invariant of `int_pow(base, e0)` for `e0 ≥ 0`. Whenever iteration `j + 1` is
entered (the guard `e0 / 4^j ≠ 0` holds in the state `sPrev` left by the first `j`
iterations): line 16 sets `mul[1] = base^(4^j)`, which in the first iteration leaves the
state unchanged (`mul[1] = base`) and in a later one is the 4th power of the previous
`mul[1]`; after lines 16-18 the table is `mul[i] = base^(i * 4^j)` for `i = 0..3`; and at
the end of the iteration `ret = base^(e0 mod 4^(j+1))`, `exponent = e0 / 4^(j+1)`. All
powers are `pow64`, taken with 64-bit wraparound multiplication. -/
theorem loop_invariant (base e0 : Int) (j : Nat) (hb : isInt64 base) (h0 : 0 ≤ e0)
    (hk : e0 / 4 ^ j ≠ 0) :
    ∃ sPrev s16 sMid,
      iterate j (init base e0) = some sPrev ∧ sPrev.exponent = e0 / 4 ^ j ∧
      line16 sPrev = .ok s16 ∧ s16.mul.m1 = some (pow64 base (4 ^ j)) ∧
      (j = 0 → s16 = sPrev ∧ s16.mul.m1 = some base) ∧
      (0 < j → ∃ old, sPrev.mul.m1 = some old ∧ s16.mul.m1 = some (pow64 old 4)) ∧
      refresh sPrev = .ok sMid ∧
      sMid.mul = ⟨some 1, some (pow64 base (4 ^ j)), some (pow64 base (2 * 4 ^ j)),
        some (pow64 base (3 * 4 ^ j))⟩ ∧
      iterate (j + 1) (init base e0) =
        some ⟨pow64 base (e0.toNat % 4 ^ (j + 1)), sMid.mul, e0 / 4 ^ (j + 1)⟩ := by
  obtain ⟨n, rfl⟩ := Int.eq_ofNat_of_zero_le h0
  have hn : 4 ^ j ≤ n := by
    by_contra hlt
    apply hk
    apply Int.ediv_eq_zero_of_lt h0
    have : n < 4 ^ j := by omega
    exact_mod_cast this
  have hend := iterate_init base n j hn
  have hd1 : ((n : Int)) / 4 ^ (j + 1) = ((n / 4 ^ (j + 1) : Nat) : Int) := by push_cast; rfl
  have hb1 : mul64 base 1 = base := by
    unfold mul64
    rw [mul_one, wrap64_of_isInt64 hb]
  have hp1 : pow64 base 1 = base := by
    rw [pow64_eq_wrap64, pow_one, wrap64_of_isInt64 hb]
  rw [Int.toNat_ofNat, hd1]
  cases j with
  | zero =>
    have h2 : mul64 base base = pow64 base 2 := by
      rw [pow64_eq_wrap64, pow_two]; rfl
    have h3 : mul64 (pow64 base 2) base = pow64 base 3 := rfl
    have q1 : pow64 base (4 ^ 0) = base := by rw [pow_zero, hp1]
    refine ⟨init base n, init base n,
      ⟨1, ⟨some 1, some (pow64 base (4 ^ 0)), some (pow64 base (2 * 4 ^ 0)),
        some (pow64 base (3 * 4 ^ 0))⟩, n⟩,
      rfl, by simp [init], ?_, ?_, ?_, ?_, ?_, rfl, hend⟩
    · simp [line16, init, Table.read, Outcome.bind, hb1]
    · rw [q1]; rfl
    · intro _
      exact ⟨rfl, rfl⟩
    · intro h
      exact absurd h (lt_irrefl 0)
    · unfold init
      rw [refresh_eq, hb1, h2, h3, q1, pow_zero, mul_one, mul_one]
  | succ i =>
    have hi : 4 ^ i ≤ n := le_trans (Nat.pow_le_pow_right (by decide) (Nat.le_succ i)) hn
    have hprev := iterate_init base n i hi
    have hd0 : ((n : Int)) / 4 ^ (i + 1) = ((n / 4 ^ (i + 1) : Nat) : Int) := by
      push_cast; rfl
    have e4 : 4 ^ i + 3 * 4 ^ i = 4 ^ (i + 1) := by rw [pow_succ]; ring
    have e8 : 4 ^ (i + 1) + 4 ^ (i + 1) = 2 * 4 ^ (i + 1) := by ring
    have e12 : 2 * 4 ^ (i + 1) + 4 ^ (i + 1) = 3 * 4 ^ (i + 1) := by ring
    have c1 : mul64 (pow64 base (4 ^ i)) (pow64 base (3 * 4 ^ i)) = pow64 base (4 ^ (i + 1)) := by
      rw [pow64_eq_wrap64, pow64_eq_wrap64, pow64_eq_wrap64, mul64_wrap64_pow, e4]
    have c2 : mul64 (pow64 base (4 ^ (i + 1))) (pow64 base (4 ^ (i + 1))) =
        pow64 base (2 * 4 ^ (i + 1)) := by
      rw [pow64_eq_wrap64, pow64_eq_wrap64, mul64_wrap64_pow, e8]
    have c3 : mul64 (pow64 base (2 * 4 ^ (i + 1))) (pow64 base (4 ^ (i + 1))) =
        pow64 base (3 * 4 ^ (i + 1)) := by
      rw [pow64_eq_wrap64, pow64_eq_wrap64, pow64_eq_wrap64, mul64_wrap64_pow, e12]
    refine ⟨_, ⟨pow64 base (n % 4 ^ (i + 1)),
        ⟨some 1, some (pow64 base (4 ^ (i + 1))), some (pow64 base (2 * 4 ^ i)),
          some (pow64 base (3 * 4 ^ i))⟩, ((n / 4 ^ (i + 1) : Nat) : Int)⟩,
      ⟨pow64 base (n % 4 ^ (i + 1)),
        ⟨some 1, some (pow64 base (4 ^ (i + 1))), some (pow64 base (2 * 4 ^ (i + 1))),
          some (pow64 base (3 * 4 ^ (i + 1)))⟩, ((n / 4 ^ (i + 1) : Nat) : Int)⟩,
      hprev, hd0.symm, ?_, rfl, ?_, ?_, ?_, rfl, hend⟩
    · simp [line16, Table.read, Outcome.bind, c1]
    · intro h
      exact absurd h (Nat.succ_ne_zero i)
    · intro _
      refine ⟨pow64 base (4 ^ i), rfl, ?_⟩
      have : pow64 (pow64 base (4 ^ i)) 4 = pow64 base (4 ^ (i + 1)) := by
        rw [pow64_eq_wrap64, pow64_eq_wrap64, pow64_eq_wrap64, wrap64_pow, ← pow_mul, pow_succ]
      rw [this]
    · rw [refresh_eq, c1, c2, c3]

/-- C10 at `base = 3`, `e0 = 17`, second iteration: the table is `1, 3^4, 3^8, 3^12`,
`ret = 3^(17 mod 16) = 3` and `exponent = 17 / 16 = 1`. -/
theorem loop_invariant_witness :
    isInt64 3 ∧ (0 : Int) ≤ 17 ∧ (17 : Int) / 4 ^ 1 ≠ 0 ∧
    iterate 2 (init 3 17) = some ⟨3, ⟨some 1, some 81, some 6561, some 531441⟩, 1⟩ := by
  obtain ⟨sPrev, s16, sMid, _, _, _, _, _, _, _, hmul, hit⟩ :=
    loop_invariant 3 17 1 (by decide) (by decide) (by decide)
  rw [hmul] at hit
  refine ⟨by decide, by decide, by decide, ?_⟩
  rw [hit]
  decide

/-! ## Number of iterations -/

/-- C11: for every exponent `≥ 0` the loop of `int_pow` runs exactly as many iterations
as the exponent has base-4 digits: after that many iterations the exponent is `0`, and
the fuel runs out exactly when it is smaller than that number. This number is half the
bit length rounded up (the bit length being the number of one-bit shifts that clear the
exponent), it is `0` for the exponent `0` and at most `32` for a 64-bit exponent. -/
theorem loop_iteration_count (base exponent : Int) (h0 : 0 ≤ exponent) :
    (∃ s, iterate (Nat.digits 4 exponent.toNat).length (init base exponent) = some s ∧
      s.exponent = 0) ∧
    (∀ fuel, int_pow fuel base exponent = .timeout ↔
      fuel < (Nat.digits 4 exponent.toNat).length) ∧
    (Nat.digits 4 exponent.toNat).length = ((Nat.digits 2 exponent.toNat).length + 1) / 2 ∧
    (∀ j, sar64 exponent j = 0 ↔ (Nat.digits 2 exponent.toNat).length ≤ j) ∧
    (exponent = 0 → (Nat.digits 4 exponent.toNat).length = 0) ∧
    (isInt64 exponent → (Nat.digits 4 exponent.toNat).length ≤ 32) := by
  obtain ⟨n, rfl⟩ := Int.eq_ofNat_of_zero_le h0
  rw [Int.toNat_ofNat]
  have hlen := digits_length_le_iff 4 (by decide) n
  refine ⟨?_, ?_, digits_four_length n, fun j => sar64_natCast_eq_zero_iff n j, ?_, ?_⟩
  · by_cases hn : n = 0
    · subst hn
      exact ⟨init base 0, by simp [iterate], rfl⟩
    · have hN := Nat.digits_len 4 n (by decide) hn
      rw [hN]
      refine ⟨_, iterate_init base n (Nat.log 4 n) (Nat.pow_log_le_self 4 hn), ?_⟩
      have hlt : n < 4 ^ (Nat.log 4 n + 1) := Nat.lt_pow_succ_log_self (by decide) n
      show ((n / 4 ^ (Nat.log 4 n + 1) : Nat) : Int) = 0
      rw [Nat.div_eq_of_lt hlt]
      rfl
  · intro fuel
    constructor
    · intro ht
      by_contra hge
      have hlt : n < 4 ^ fuel := (hlen fuel).mp (by omega)
      rw [int_pow_nat fuel base n hlt] at ht
      cases ht
    · intro hlt
      apply int_pow_timeout
      have hge : 4 ^ fuel ≤ n := by
        by_contra hc
        have := (hlen fuel).mpr (by omega)
        omega
      have hpos : 0 < n / 4 ^ fuel := Nat.div_pos hge (by positivity)
      have hc : ((n : Int)) / 4 ^ fuel = ((n / 4 ^ fuel : Nat) : Int) := by push_cast; rfl
      rw [hc]
      exact_mod_cast (Nat.pos_iff_ne_zero.mp hpos)
  · intro hz
    have : n = 0 := by exact_mod_cast hz
    subst this
    simp
  · intro h64
    apply (hlen 32).mpr
    have := h64.2
    have h63 : ((n : Int)) < 2 ^ 63 := this
    have : n < 2 ^ 63 := by exact_mod_cast h63
    have : (2 : Nat) ^ 63 < 4 ^ 32 := by norm_num
    omega

/-- C11 at `exponent = 17` (5 bits, 3 base-4 digits): the loop runs 3 iterations, 2 units
of fuel are not enough. -/
theorem loop_iteration_count_witness :
    (0 : Int) ≤ 17 ∧ (Nat.digits 4 (17 : Int).toNat).length = 3 ∧
    (Nat.digits 2 (17 : Int).toNat).length = 5 ∧
    (∃ s, iterate 3 (init 3 17) = some s ∧ s.exponent = 0) ∧
    int_pow 2 3 17 = .timeout := by
  have h := loop_iteration_count 3 17 (by decide)
  have e4 : (Nat.digits 4 (17 : Int).toNat).length = 3 := by
    rw [show (17 : Int).toNat = 17 from rfl]
    norm_num
  have e2 : (Nat.digits 2 (17 : Int).toNat).length = 5 := by
    rw [show (17 : Int).toNat = 17 from rfl]
    norm_num
  rw [e4] at h
  exact ⟨by decide, e4, e2, h.1, (h.2.1 2).mpr (by decide)⟩

/-! ## Multiplicativity -/

/-- C12: for every 64-bit base and all exponents `m ≥ 0`, `n ≥ 0` with
`m + n ≤ 2^63 - 1`, `int_pow(base, m + n) = int_pow(base, m) * int_pow(base, n)` under
64-bit wraparound multiplication, whether or not the powers overflow; for `n = 1` the
second factor is `base`, which is the multiplicative recurrence. -/
theorem int_pow_add (fuel : Nat) (base m n : Int) (hb : isInt64 base) (hm : 0 ≤ m)
    (hn : 0 ≤ n) (hs : m + n ≤ 2 ^ 63 - 1) (hf : 32 ≤ fuel) :
    ∃ vm vn, int_pow fuel base m = .ok vm ∧ int_pow fuel base n = .ok vn ∧
      int_pow fuel base (m + n) = .ok (mul64 vm vn) ∧ (n = 1 → vn = base) := by
  have h1 := int_pow_int64 fuel base m hm (by omega) hf
  have h2 := int_pow_int64 fuel base n hn (by omega) hf
  have h3 := int_pow_int64 fuel base (m + n) (by omega) (by omega) hf
  have ht : (m + n).toNat = m.toNat + n.toNat := by omega
  refine ⟨_, _, h1, h2, ?_, ?_⟩
  · rw [h3, ht, mul64_wrap64_pow]
  · intro h
    subst h
    rw [show (1 : Int).toNat = 1 from rfl, pow_one]
    exact wrap64_of_isInt64 hb

/-- C12 at `base = 2`, `m = 63`, `n = 1`, where both `2^63` and the product wrap:
`int_pow(2, 64) = int_pow(2, 63) * 2 = (-2^63) * 2 = 0`. -/
theorem int_pow_add_witness :
    isInt64 2 ∧ (0 : Int) ≤ 63 ∧ (0 : Int) ≤ 1 ∧ (63 : Int) + 1 ≤ 2 ^ 63 - 1 ∧
    int_pow 32 2 63 = .ok (-9223372036854775808) ∧
    int_pow 32 2 (63 + 1) = .ok (mul64 (-9223372036854775808) 2) ∧
    mul64 (-9223372036854775808) 2 = 0 := by
  obtain ⟨vm, vn, h1, _, h3, hrec⟩ :=
    int_pow_add 32 2 63 1 (by decide) (by decide) (by decide) (by decide) (by decide)
  have e1 : int_pow 32 2 63 = .ok (-9223372036854775808) := by decide
  have evm : vm = -9223372036854775808 := by
    rw [e1] at h1
    exact (Outcome.ok.inj h1).symm
  have evn : vn = 2 := hrec rfl
  subst evm
  subst evn
  exact ⟨by decide, by decide, by decide, by decide, e1, h3, by decide⟩

/-! ## Negative exponents diverge -/

/-- C13: for every negative 64-bit exponent, with `>>=` an arithmetic shift, `int_pow`
does not terminate: every value obtained by repeated right-shifts by 2 is negative (from
the 32nd shift on it is `-1`), the loop enters a `k`-th iteration for every `k`, and for
every amount of fuel the run ends by exhausting it, without a result. -/
theorem int_pow_neg_exponent_diverges (base exponent : Int) (hneg : exponent < 0)
    (h64 : isInt64 exponent) :
    (∀ k, (fun x => sar64 x 2)^[k] exponent < 0) ∧
    (∀ k, 32 ≤ k → (fun x => sar64 x 2)^[k] exponent = -1) ∧
    (∀ k, ∃ s, iterate k (init base exponent) = some s ∧ s.exponent ≠ 0) ∧
    (∀ fuel, int_pow fuel base exponent = .timeout) := by
  refine ⟨?_, ?_, ?_, ?_⟩
  · intro k
    rw [iterate_sar64_two]
    exact ediv_pow_neg exponent k hneg
  · intro k hk
    rw [iterate_sar64_two]
    apply ediv_eq_neg_one _ _ hneg
    have h32 : (4 : Int) ^ 32 ≤ 4 ^ k := pow_le_pow_right₀ (by norm_num) hk
    have hlo := h64.1
    norm_num at hlo h32
    omega
  · intro k
    obtain ⟨s, hs, hexp⟩ := iterate_neg k 1 base 1 exponent none hneg
    refine ⟨s, hs, ?_⟩
    rw [hexp]
    exact ne_of_lt (ediv_pow_neg exponent k hneg)
  · intro fuel
    exact int_pow_timeout fuel base exponent (ne_of_lt (ediv_pow_neg exponent fuel hneg))

/-- C13 at `exponent = -1` and at the minimum 64-bit exponent, with 32 units of fuel. -/
theorem int_pow_neg_exponent_diverges_witness :
    ((-1 : Int) < 0 ∧ isInt64 (-1) ∧ sar64 (-1) 2 = -1 ∧ int_pow 32 2 (-1) = .timeout) ∧
    ((-2 ^ 63 : Int) < 0 ∧ isInt64 (-2 ^ 63) ∧
      (fun x => sar64 x 2)^[32] (-2 ^ 63 : Int) = -1 ∧ int_pow 32 2 (-2 ^ 63) = .timeout) :=
  ⟨⟨by decide, by decide, by decide,
      (int_pow_neg_exponent_diverges 2 (-1) (by decide) (by decide)).2.2.2 32⟩,
    ⟨by decide, by decide,
      (int_pow_neg_exponent_diverges 2 (-2 ^ 63) (by decide) (by decide)).2.1 32 (le_refl 32),
      (int_pow_neg_exponent_diverges 2 (-2 ^ 63) (by decide) (by decide)).2.2.2 32⟩⟩

/-! ## Safety of the table accesses -/

/-- C14: the table accesses of `int_pow` are safe for every exponent, negative ones
included. The index `exponent & 3` is one of `0, 1, 2, 3`; the slot `mul[2]`, unwritten
when the loop is entered, is written by lines 16-18 of every iteration (which read only
written slots), so that line 19 reads a written slot; and no run of `int_pow` ends in a
fault. -/
theorem table_access_safe (base exponent : Int) :
    (∀ e : Int, and64 e 3 = 0 ∨ and64 e 3 = 1 ∨ and64 e 3 = 2 ∨ and64 e 3 = 3) ∧
    (init base exponent).mul.m2 = none ∧
    (∀ k s, iterate k (init base exponent) = some s →
      ∃ s18 s19, refresh s = .ok s18 ∧ s18.mul.m0.isSome ∧ s18.mul.m1.isSome ∧
        s18.mul.m2.isSome ∧ s18.mul.m3.isSome ∧ line19 s18 = .ok s19) ∧
    (∀ fuel, int_pow fuel base exponent ≠ .fault) := by
  refine ⟨?_, rfl, ?_, fun fuel => int_pow_ne_fault fuel base exponent⟩
  · intro e
    rw [and64_three]
    omega
  · intro k s hs
    obtain ⟨r, p, q, e, m2, rfl⟩ := iterate_shape k 1 base 1 exponent none s hs
    obtain ⟨v, hv⟩ := line19_ok r 1 (mul64 p q) (mul64 (mul64 p q) (mul64 p q))
      (mul64 (mul64 (mul64 p q) (mul64 p q)) (mul64 p q)) e
    exact ⟨_, _, refresh_eq r p q e m2, rfl, rfl, rfl, rfl, hv⟩

/-- C14 at `base = 2`, `exponent = -5`: the index is `3`, the second iteration starts
from a state on which lines 16-19 run without a fault, and 3 units of fuel end in a
timeout, not in a fault. -/
theorem table_access_safe_witness :
    and64 (-5) 3 = 3 ∧
    (∃ s, iterate 1 (init 2 (-5)) = some s ∧
      ∃ s18 s19, refresh s = .ok s18 ∧ s18.mul.m2.isSome ∧ line19 s18 = .ok s19) ∧
    int_pow 3 2 (-5) ≠ .fault := by
  have h := table_access_safe 2 (-5)
  refine ⟨by decide, ?_, h.2.2.2 3⟩
  have hit : iterate 1 (init 2 (-5)) =
      some ⟨8, ⟨some 1, some 2, some 4, some 8⟩, -2⟩ := by decide
  obtain ⟨s18, s19, h1, _, _, h2, _, h3⟩ := h.2.2.1 1 _ hit
  exact ⟨_, hit, s18, s19, h1, h2, h3⟩

/-! ## The word-width entry point on a 64-bit host -/

/-- C15: on a 64-bit host, for every base and every exponent `≥ 0` of the 63-bit OCaml
`int` range, `int_math_int_pow_stub` returns a tagged immediate whose untagged value is
the unique integer of `[-2^62, 2^62)` congruent to the exact power modulo `2^63`; it is
the power `pow63` computed with 63-bit wraparound throughout. -/
theorem int_pow_stub_63bit (fuel : Nat) (base exponent : Int) (hb : isOCamlInt 64 base)
    (he : isOCamlInt 64 exponent) (h0 : 0 ≤ exponent) (hf : 32 ≤ fuel) :
    ∃ r, int_math_int_pow_stub 64 fuel (Val_long 64 base) (Val_long 64 exponent) = .ok r ∧
      r % 2 = 1 ∧ isOCamlInt 64 (Long_val r) ∧
      Long_val r ≡ base ^ exponent.toNat [ZMOD 2 ^ 63] ∧
      (∀ u, isOCamlInt 64 u → u ≡ base ^ exponent.toNat [ZMOD 2 ^ 63] → u = Long_val r) ∧
      Long_val r = pow63 base exponent.toNat := by
  have he64 := isInt64_of_isOCamlInt 64 (le_refl 64) exponent he
  have hpow := int_pow_int64 fuel base exponent h0 he64.2 hf
  obtain ⟨hrange, hmod, hodd⟩ := Long_val_Val_long_64 (wrap64 (base ^ exponent.toNat))
  have hv : wrap64 (base ^ exponent.toNat) ≡ base ^ exponent.toNat [ZMOD 2 ^ 63] := by
    have h64 := wrap64_modEq (base ^ exponent.toNat)
    exact Int.ModEq.of_mul_left 2 (by norm_num at h64 ⊢; exact h64)
  have hcong := hmod.trans hv
  have huniq : ∀ u, isOCamlInt 64 u → u ≡ base ^ exponent.toNat [ZMOD 2 ^ 63] →
      u = Long_val (Val_long 64 (wrap64 (base ^ exponent.toNat))) := by
    intro u hu hc
    have hc2 := hc.trans hcong.symm
    rw [isOCamlInt_64_iff] at hu hrange
    unfold Int.ModEq at hc2
    norm_num at hc2
    omega
  refine ⟨Val_long 64 (wrap64 (base ^ exponent.toNat)), ?_, hodd, hrange, hcong, huniq, ?_⟩
  · unfold int_math_int_pow_stub
    rw [Val_long_of_isOCamlInt 64 (by decide) base hb,
      Val_long_of_isOCamlInt 64 (by decide) exponent he, Long_val_tagged, Long_val_tagged,
      hpow, Outcome.ok_bind]
  · exact (huniq _ (pow63_spec base exponent.toNat).1 (pow63_spec base exponent.toNat).2).symm

/-- C15 at `exponent = 2`: for `base = 2^31` the square `2^62` does not fit in 63 bits
and the stub returns the tagged form of `-2^62`; for `base = 3037000500` the square
overflows 64 bits as well and the stub returns the tagged form of `145474192`. -/
theorem int_pow_stub_63bit_witness :
    (isOCamlInt 64 2147483648 ∧ isOCamlInt 64 2 ∧ (0 : Int) ≤ 2 ∧
      ∃ r, int_math_int_pow_stub 64 32 (Val_long 64 2147483648) (Val_long 64 2) = .ok r ∧
        Long_val r = -4611686018427387904) ∧
    (isOCamlInt 64 3037000500 ∧ isOCamlInt 64 2 ∧ (0 : Int) ≤ 2 ∧
      ∃ r, int_math_int_pow_stub 64 32 (Val_long 64 3037000500) (Val_long 64 2) = .ok r ∧
        Long_val r = 145474192) := by
  obtain ⟨r, hr, _, _, _, _, hp⟩ :=
    int_pow_stub_63bit 32 2147483648 2 (by decide) (by decide) (by decide) (by decide)
  obtain ⟨r', hr', _, _, _, _, hp'⟩ :=
    int_pow_stub_63bit 32 3037000500 2 (by decide) (by decide) (by decide) (by decide)
  have e : pow63 2147483648 (2 : Int).toNat = -4611686018427387904 := by decide
  have e' : pow63 3037000500 (2 : Int).toNat = 145474192 := by decide
  rw [e] at hp
  rw [e'] at hp'
  exact ⟨⟨by decide, by decide, by decide, r, hr, hp⟩,
    ⟨by decide, by decide, by decide, r', hr', hp'⟩⟩

end IntMathStubs
